import Mathlib

/-!
Shallow embedding of the anomaly-detection core of the repository
(`src/anomaly-detection-system/src/isolation_forest.rs` and
`src/anomaly-detection-system/src/detector.rs`).

Modelling conventions:
* Rust `f64` values are modelled as real numbers (`ℝ`); the finite-range
  constants `f64::MAX`, `f64::MIN`, `f64::EPSILON` appearing in the source
  are modelled as the exact reals they denote.
* `rand::thread_rng` is modelled as an explicit oracle (`Rng`): a stream of
  natural numbers (for `gen_range(0..n)`, taken modulo `n`, the in-range
  contract of the library call) and a stream of reals in `[0, 1)`
  (for `gen_range(lo..hi)` on floats, mapped affinely onto `[lo, hi)`,
  the half-open-range contract of the library call).  Every function that
  draws randomness takes and returns the oracle, mirroring `&mut impl Rng`
  / the ambient thread-local generator.
* Indexing `point[feature]` in `path_length` can panic in Rust when the
  point is shorter than the training dimensionality.  The traversal value
  is modelled totally with `List.getD _ _ 0`, and the companion predicate
  `IsolationNode.inBounds` characterises exactly the executions in which
  the Rust code performs no out-of-bounds index (so Rust behaviour is:
  the modelled value when `inBounds`, a panic otherwise).
* `extract_features` lives in a file that is out of scope per the spec
  (§6, an external pure function); `Detector.process` therefore takes the
  feature vector directly.
-/

namespace AnomalyDetection

/-- Exact value of `f64::MAX`. -/
noncomputable def f64MAX : ℝ := 2 ^ 1024 - 2 ^ 971

/-- Exact value of `f64::MIN` (the most negative finite double). -/
noncomputable def f64MIN : ℝ := -(2 ^ 1024 - 2 ^ 971)

/-- Exact value of `f64::EPSILON` (2⁻⁵²). -/
noncomputable def f64EPSILON : ℝ := 1 / 2 ^ 52

/-- Oracle model of the pseudo-random generator: a stream of naturals for
integer draws, a stream of reals in `[0, 1)` for float draws, and a cursor. -/
structure Rng where
  nats : ℕ → ℕ
  reals : ℕ → ℝ
  pos : ℕ
  reals_lb : ∀ i, 0 ≤ reals i
  reals_ub : ∀ i, reals i < 1

/-- Advance the oracle cursor by one draw. -/
def Rng.next (r : Rng) : Rng :=
  { r with pos := r.pos + 1 }

/-- `rng.gen_range(0..n)`: an arbitrary oracle natural reduced into range. -/
def Rng.genNat (r : Rng) (n : ℕ) : ℕ × Rng :=
  (r.nats r.pos % n, r.next)

/-- `rng.gen_range(lo..hi)` on floats: a draw in `[lo, hi)` (for `lo < hi`). -/
noncomputable def Rng.genReal (r : Rng) (lo hi : ℝ) : ℝ × Rng :=
  (lo + r.reals r.pos * (hi - lo), r.next)

/-- `fn c(n: f64) -> f64` from `isolation_forest.rs`: average path length of
an unsuccessful BST search, used to normalise the anomaly score. -/
noncomputable def c (n : ℝ) : ℝ :=
  if n ≤ 1 then 0 else 2 * (Real.log n + 0.5772156649) - 2 * (n - 1) / n

/-- `enum IsolationNode`: an internal split node or a leaf holding the count
of subsample points that landed there. -/
inductive IsolationNode : Type
  | branch (feature : ℕ) (threshold : ℝ) (left right : IsolationNode)
  | leaf (size : ℕ)

/-- `IsolationNode::path_length`: traversal depth plus the leaf-size
correction `c(size)`.  The point access is total (`getD`); see `inBounds`
for the panic-freedom companion. -/
noncomputable def IsolationNode.path_length : IsolationNode → List ℝ → ℕ → ℝ
  | .leaf size, _, depth => (depth : ℝ) + c (size : ℝ)
  | .branch feature threshold left right, point, depth =>
      if point.getD feature 0 < threshold then
        left.path_length point (depth + 1)
      else
        right.path_length point (depth + 1)

/-- The traversal of `path_length` for this point never indexes out of
bounds (i.e. the Rust code does not panic on this point). -/
def IsolationNode.inBounds : IsolationNode → List ℝ → Prop
  | .leaf _, _ => True
  | .branch feature threshold left right, point =>
      feature < point.length ∧
      (point.getD feature 0 < threshold → left.inBounds point) ∧
      (¬ point.getD feature 0 < threshold → right.inBounds point)

/-- Every split feature stored in the tree is below `d` (the training
dimensionality). -/
def IsolationNode.featuresLt : IsolationNode → ℕ → Prop
  | .leaf _, _ => True
  | .branch feature _ left right, d =>
      feature < d ∧ left.featuresLt d ∧ right.featuresLt d

open Classical in
/-- `IsolationTree::build_node`: recursive randomized axis-aligned
partitioning, with the four leaf cases of the source (depth cap, tiny
partition, constant feature within `f64::EPSILON`, empty side). -/
noncomputable def build_node (data : List (List ℝ)) (depth maxDepth : ℕ)
    (rng : Rng) : IsolationNode × Rng :=
  if h : maxDepth ≤ depth ∨ data.length ≤ 1 then
    (.leaf data.length, rng)
  else
    let nFeatures := data.headI.length
    let fr := rng.genNat nFeatures
    let feature := fr.1
    let minVal := data.foldl (fun m s => min m (s.getD feature 0)) f64MAX
    let maxVal := data.foldl (fun m s => max m (s.getD feature 0)) f64MIN
    if |maxVal - minVal| < f64EPSILON then
      (.leaf data.length, fr.2)
    else
      let tr := Rng.genReal fr.2 minVal maxVal
      let threshold := tr.1
      let leftData := data.filter fun s => decide (s.getD feature 0 < threshold)
      let rightData := data.filter fun s => decide (¬ s.getD feature 0 < threshold)
      if leftData.isEmpty ∨ rightData.isEmpty then
        (.leaf data.length, tr.2)
      else
        let lb := build_node leftData (depth + 1) maxDepth tr.2
        let rb := build_node rightData (depth + 1) maxDepth lb.2
        (.branch feature threshold lb.1 rb.1, rb.2)
termination_by maxDepth - depth
decreasing_by
  all_goals simp only [not_or, not_le] at h
  all_goals omega

/-- `struct IsolationTree`. -/
structure IsolationTree where
  root : IsolationNode

/-- `IsolationTree::fit`. -/
noncomputable def IsolationTree.fit (data : List (List ℝ)) (maxDepth : ℕ)
    (rng : Rng) : IsolationTree × Rng :=
  let br := build_node data 0 maxDepth rng
  (⟨br.1⟩, br.2)

/-- `IsolationTree::path_length` (root traversal at depth 0). -/
noncomputable def IsolationTree.path_length (t : IsolationTree)
    (point : List ℝ) : ℝ :=
  t.root.path_length point 0

/-- `struct IsolationForest`. -/
structure IsolationForest where
  trees : List IsolationTree
  sample_size : ℕ

/-- One subsample for one tree: `actual` points drawn with replacement,
each at an RNG-chosen index of `data` (`rng.gen_range(0..data.len())`). -/
noncomputable def drawSubsample (data : List (List ℝ)) :
    ℕ → Rng → List (List ℝ) × Rng
  | 0, r => ([], r)
  | k + 1, r =>
      let ir := r.genNat data.length
      let rest := drawSubsample data k ir.2
      (data.getD ir.1 [] :: rest.1, rest.2)

/-- The `(0..n_trees).map(...)` loop of `IsolationForest::fit`: build the
trees sequentially, threading the generator. -/
noncomputable def buildTrees (data : List (List ℝ)) (actual maxDepth : ℕ) :
    ℕ → Rng → List IsolationTree × Rng
  | 0, r => ([], r)
  | n + 1, r =>
      let sr := drawSubsample data actual r
      let tr := IsolationTree.fit sr.1 maxDepth sr.2
      let rest := buildTrees data actual maxDepth n tr.2
      (tr.1 :: rest.1, rest.2)

/-- `IsolationForest::fit`: `max_depth = ceil(log2(sample_size))` (the Rust
float computation `(sample_size as f64).log2().ceil() as usize`, which is
`Nat.clog 2 sample_size`), `actual_sample_size = min(sample_size, |data|)`,
`n_trees` trees on with-replacement subsamples, storing the actual size. -/
noncomputable def IsolationForest.fit (data : List (List ℝ))
    (nTrees sampleSize : ℕ) (rng : Rng) : IsolationForest × Rng :=
  let maxDepth := Nat.clog 2 sampleSize
  let actual := min sampleSize data.length
  let tr := buildTrees data actual maxDepth nTrees rng
  ({ trees := tr.1, sample_size := actual }, tr.2)

open Classical in
/-- `IsolationForest::score`: average path length over the trees, then
`0.5` if `c(sample_size) == 0`, else `2^(-avg / c(sample_size))`. -/
noncomputable def IsolationForest.score (F : IsolationForest)
    (point : List ℝ) : ℝ :=
  let avg := (F.trees.map fun t => t.path_length point).sum / F.trees.length
  let cn := c (F.sample_size : ℝ)
  if cn = 0 then 0.5 else (2 : ℝ) ^ (-(avg / cn))

/-- All trees of the forest traverse this point without an out-of-bounds
index (the Rust `score` call does not panic). -/
def IsolationForest.scoreInBounds (F : IsolationForest)
    (point : List ℝ) : Prop :=
  ∀ t ∈ F.trees, t.root.inBounds point

/-- `struct DetectorConfig`. -/
structure DetectorConfig where
  n_trees : ℕ
  buffer_size : ℕ
  threshold : ℝ
  retrain_interval : ℕ

/-- `struct AnomalyReport` (the out-of-scope raw event is represented by
its feature vector). -/
structure AnomalyReport where
  features : List ℝ
  score : ℝ
  event_number : ℕ

/-- `struct Detector`, with the ambient thread-local RNG made explicit. -/
structure Detector where
  config : DetectorConfig
  forest : Option IsolationForest
  buffer : List (List ℝ)
  events_since_train : ℕ
  total_events : ℕ
  total_anomalies : ℕ
  rng : Rng

/-- `Detector::new`. -/
def Detector.new (config : DetectorConfig) (rng : Rng) : Detector :=
  { config := config, forest := none, buffer := [], events_since_train := 0,
    total_events := 0, total_anomalies := 0, rng := rng }

/-- `Detector::train`: fit a forest on the current buffer with `n_trees`
and `buffer_size` as requested sample size, reset `events_since_train`. -/
noncomputable def Detector.train (d : Detector) : Detector :=
  let fr := IsolationForest.fit d.buffer d.config.n_trees
      d.config.buffer_size d.rng
  { d with forest := some fr.1, events_since_train := 0, rng := fr.2 }

/-- The sliding-window eviction of `Detector::process`: after a push, if the
buffer exceeds `2 * buffer_size`, drain the oldest `len - buffer_size`. -/
def slide (bufferSize : ℕ) (b : List (List ℝ)) : List (List ℝ) :=
  if bufferSize * 2 < b.length then b.drop (b.length - bufferSize) else b

open Classical in
/-- `Detector::process` on one feature vector: count the event; when
untrained, buffer and possibly train; when trained, score with the current
forest, push/evict, possibly retrain, and report iff `score >= threshold`. -/
noncomputable def Detector.process (d : Detector) (v : List ℝ) :
    Detector × Option AnomalyReport :=
  match d.forest with
  | none =>
      let b := d.buffer ++ [v]
      let d1 : Detector := { d with total_events := d.total_events + 1,
                                    buffer := b }
      (if d.config.buffer_size ≤ b.length then d1.train else d1, none)
  | some F =>
      let score := F.score v
      let b := slide d.config.buffer_size (d.buffer ++ [v])
      let d1 : Detector := { d with total_events := d.total_events + 1,
                                    events_since_train := d.events_since_train + 1,
                                    buffer := b }
      let d2 := if d.config.retrain_interval ≤ d.events_since_train + 1
                then d1.train else d1
      if d.config.threshold ≤ score then
        ({ d2 with total_anomalies := d2.total_anomalies + 1 },
         some { features := v, score := score,
                event_number := d.total_events + 1 })
      else
        (d2, none)

/-- `Detector::is_trained`. -/
def Detector.is_trained (d : Detector) : Bool :=
  d.forest.isSome

/-- Process a whole sequence of observations, discarding the reports. -/
noncomputable def Detector.run (d : Detector) (obs : List (List ℝ)) :
    Detector :=
  obs.foldl (fun s v => (s.process v).1) d

/-- A concrete oracle used in witnesses: the identity stream of naturals
and the constant real stream `1/2`. -/
noncomputable def rngDemo : Rng where
  nats := fun i => i
  reals := fun _ => 1 / 2
  pos := 0
  reals_lb := fun _ => by norm_num
  reals_ub := fun _ => by norm_num

/-- A degenerate forest: no trees, stored sample size 1 (witness input). -/
def forestDeg : IsolationForest :=
  { trees := [], sample_size := 1 }

/-- A small configuration used as witness input. -/
noncomputable def cfgDemo : DetectorConfig :=
  { n_trees := 1, buffer_size := 1, threshold := 0.6, retrain_interval := 1 }

/-- A detector in the Detecting state holding the degenerate forest
(witness input). -/
noncomputable def detectorDeg : Detector :=
  { config := cfgDemo, forest := some forestDeg, buffer := [],
    events_since_train := 0, total_events := 0, total_anomalies := 0,
    rng := rngDemo }

/-! ### Properties of the normalization function `c` -/

theorem c_of_le_one {n : ℝ} (h : n ≤ 1) : c n = 0 := if_pos h

theorem c_of_one_lt {n : ℝ} (h : 1 < n) :
    c n = 2 * (Real.log n + 0.5772156649) - 2 * (n - 1) / n :=
  if_neg (not_le.mpr h)

/-- Lower logarithm bound `1 - 1/n < log n` for `n > 1`. -/
theorem one_sub_inv_lt_log {n : ℝ} (h : 1 < n) : 1 - 1 / n < Real.log n := by
  have hn0 : (0 : ℝ) < n := by linarith
  have h1 : Real.log (1 / n) < 1 / n - 1 := by
    refine Real.log_lt_sub_one_of_pos (by positivity) ?_
    intro heq
    have : n = 1 := by
      field_simp at heq
      linarith
    linarith
  rw [one_div, Real.log_inv, ← one_div] at h1
  linarith

theorem c_pos {n : ℝ} (h : 1 < n) : 0 < c n := by
  have hn0 : (0 : ℝ) < n := by linarith
  have hlog := one_sub_inv_lt_log h
  rw [c_of_one_lt h]
  have e : 2 * (n - 1) / n = 2 - 2 * (1 / n) := by
    field_simp
    ring
  rw [e]
  nlinarith

theorem c_nonneg (n : ℝ) : 0 ≤ c n := by
  rcases le_or_lt n 1 with h | h
  · rw [c_of_le_one h]
  · exact (c_pos h).le

theorem c_eq_zero_iff {n : ℝ} : c n = 0 ↔ n ≤ 1 := by
  constructor
  · intro h
    by_contra hn
    exact absurd h (ne_of_gt (c_pos (not_le.mp hn)))
  · exact c_of_le_one

theorem c_strict_lt {a b : ℝ} (ha : 1 < a) (hab : a < b) : c a < c b := by
  have ha0 : (0 : ℝ) < a := by linarith
  have hb0 : (0 : ℝ) < b := by linarith
  have h1 : Real.log (a / b) < a / b - 1 := by
    refine Real.log_lt_sub_one_of_pos (by positivity) ?_
    intro heq
    have : a = b := by
      field_simp at heq
      linarith
    linarith
  rw [Real.log_div ha0.ne' hb0.ne'] at h1
  rw [c_of_one_lt ha, c_of_one_lt (ha.trans hab)]
  have hba : (b - a) / b < Real.log b - Real.log a := by
    have hrw : (b - a) / b = 1 - a / b := by field_simp
    rw [hrw]; linarith
  have hstep : 2 * (b - 1) / b - 2 * (a - 1) / a < 2 * Real.log b - 2 * Real.log a := by
    have e1 : 2 * (b - 1) / b - 2 * (a - 1) / a = 2 * (b - a) / (a * b) := by
      field_simp
      ring
    have e2 : 2 * (b - a) / (a * b) ≤ 2 * ((b - a) / b) := by
      rw [mul_div_assoc]
      gcongr
      · linarith
      · nlinarith
    have e3 : 2 * ((b - a) / b) < 2 * (Real.log b - Real.log a) := by linarith
    rw [e1]
    nlinarith
  linarith

/-- C8: the normalization function satisfies `c(n) = 0` for `n ≤ 1`, equals
`2·(ln n + γ) − 2·(n−1)/n` with `γ = 0.5772156649` for `n > 1`, and is
strictly increasing on `n > 1`. -/
theorem c_contract :
    (∀ n : ℝ, n ≤ 1 → c n = 0) ∧
    (∀ n : ℝ, 1 < n → c n = 2 * (Real.log n + 0.5772156649) - 2 * (n - 1) / n) ∧
    (∀ a b : ℝ, 1 < a → a < b → c a < c b) :=
  ⟨fun _ h => c_of_le_one h, fun _ h => c_of_one_lt h,
   fun _ _ ha hab => c_strict_lt ha hab⟩

/-- C8 witness: the contract evaluated at `n = 1`, `n = 2`, and the strict
increase `c 2 < c 3`. -/
theorem c_contract_witness :
    c 1 = 0 ∧
    c 2 = 2 * (Real.log 2 + 0.5772156649) - 2 * (2 - 1) / 2 ∧
    c 2 < c 3 :=
  ⟨c_contract.1 1 (by norm_num), c_contract.2.1 2 (by norm_num),
   c_contract.2.2 2 3 (by norm_num) (by norm_num)⟩

/-! ### Path-length bounds and the score range -/

theorem path_length_ge (node : IsolationNode) (point : List ℝ) (depth : ℕ) :
    (depth : ℝ) ≤ node.path_length point depth := by
  induction node generalizing depth with
  | leaf size =>
    simp only [IsolationNode.path_length]
    linarith [c_nonneg (size : ℝ)]
  | branch f th l r ihl ihr =>
    simp only [IsolationNode.path_length]
    split
    · have h := ihl (depth + 1)
      push_cast at h
      linarith
    · have h := ihr (depth + 1)
      push_cast at h
      linarith

/-- Generic range bound for `score`: any forest whose stored sample size
exceeds 1 scores every point inside `(0, 1]`. -/
theorem score_mem_Ioc (F : IsolationForest) (point : List ℝ)
    (hs : 1 < F.sample_size) :
    0 < F.score point ∧ F.score point ≤ 1 := by
  have hc : 0 < c (F.sample_size : ℝ) := c_pos (by exact_mod_cast hs)
  have havg : 0 ≤ (F.trees.map fun t => t.path_length point).sum /
      (F.trees.length : ℝ) := by
    apply div_nonneg
    · apply List.sum_nonneg
      intro x hx
      simp only [List.mem_map] at hx
      obtain ⟨t, _, rfl⟩ := hx
      have h := path_length_ge t.root point 0
      simpa [IsolationTree.path_length] using h
    · positivity
  rw [IsolationForest.score]
  rw [if_neg hc.ne']
  constructor
  · exact Real.rpow_pos_of_pos (by norm_num) _
  · exact Real.rpow_le_one_of_one_le_of_nonpos (by norm_num)
      (neg_nonpos.mpr (div_nonneg havg hc.le))

/-! ### Feature-index invariants of built trees -/

theorem featuresLt_inBounds (node : IsolationNode) (point : List ℝ) (d : ℕ)
    (h : node.featuresLt d) (hlen : d ≤ point.length) :
    node.inBounds point := by
  induction node with
  | leaf size => trivial
  | branch f th l r ihl ihr =>
    obtain ⟨hf, hl, hr⟩ := h
    exact ⟨lt_of_lt_of_le hf hlen, fun _ => ihl hl, fun _ => ihr hr⟩

theorem build_node_featuresLt {d : ℕ} (hd : 0 < d) :
    ∀ (k : ℕ) (data : List (List ℝ)) (depth maxDepth : ℕ) (rng : Rng),
      maxDepth - depth ≤ k → (∀ v ∈ data, v.length = d) →
      ((build_node data depth maxDepth rng).1).featuresLt d := by
  intro k
  induction k with
  | zero =>
    intro data depth maxDepth rng hk hlen
    rw [build_node, dif_pos (Or.inl (by omega))]
    trivial
  | succ k ih =>
    intro data depth maxDepth rng hk hlen
    rw [build_node]
    by_cases h1 : maxDepth ≤ depth ∨ data.length ≤ 1
    · rw [dif_pos h1]
      trivial
    · rw [dif_neg h1]
      simp only
      split
      · trivial
      · split
        · trivial
        · push_neg at h1
          refine ⟨?_, ?_, ?_⟩
          · cases data with
            | nil => simp at h1
            | cons x xs =>
              simp only [List.headI, Rng.genNat]
              rw [hlen x (List.mem_cons_self x xs)]
              exact Nat.mod_lt _ hd
          · exact ih _ (depth + 1) maxDepth _ (by omega)
              (fun v hv => hlen v (List.mem_of_mem_filter hv))
          · exact ih _ (depth + 1) maxDepth _ (by omega)
              (fun v hv => hlen v (List.mem_of_mem_filter hv))

theorem drawSubsample_length (data : List (List ℝ)) :
    ∀ (k : ℕ) (r : Rng), (drawSubsample data k r).1.length = k := by
  intro k
  induction k with
  | zero => intro r; simp [drawSubsample]
  | succ k ih => intro r; simp [drawSubsample, ih]

theorem drawSubsample_mem (data : List (List ℝ)) (hne : data ≠ []) :
    ∀ (k : ℕ) (r : Rng) (v : List ℝ),
      v ∈ (drawSubsample data k r).1 → v ∈ data := by
  intro k
  induction k with
  | zero => intro r v hv; simp [drawSubsample] at hv
  | succ k ih =>
    intro r v hv
    simp only [drawSubsample, List.mem_cons] at hv
    rcases hv with h | h
    · subst h
      have hlt : r.nats r.pos % data.length < data.length :=
        Nat.mod_lt _ (List.length_pos.mpr hne)
      rw [Rng.genNat]
      simp only
      rw [List.getD_eq_getElem _ _ hlt]
      exact List.getElem_mem hlt
    · exact ih _ _ h

theorem buildTrees_featuresLt {d : ℕ} (hd : 0 < d)
    (data : List (List ℝ)) (hne : data ≠ [])
    (hrect : ∀ v ∈ data, v.length = d) (actual maxDepth : ℕ) :
    ∀ (n : ℕ) (r : Rng), ∀ t ∈ (buildTrees data actual maxDepth n r).1,
      t.root.featuresLt d := by
  intro n
  induction n with
  | zero => intro r t ht; simp [buildTrees] at ht
  | succ n ih =>
    intro r t ht
    simp only [buildTrees, List.mem_cons] at ht
    rcases ht with h | h
    · subst h
      simp only [IsolationTree.fit]
      exact build_node_featuresLt hd maxDepth _ 0 maxDepth _ (by omega)
        (fun v hv => hrect v (drawSubsample_mem data hne actual r v hv))
    · exact ih _ t h

/-- C1: for every forest trained by `fit` on non-empty rectangular data of
positive dimensionality, with at least one tree and a stored sample size
whose normalization constant is nonzero (`min sample_size |data| > 1`),
scoring a point of the training dimensionality traverses in bounds and
returns a value in the half-open interval `(0, 1]`. -/
theorem fit_score_mem_Ioc
    (data : List (List ℝ)) (d nTrees sampleSize : ℕ) (rng : Rng)
    (point : List ℝ)
    (hdata : data ≠ [])
    (hrect : ∀ v ∈ data, v.length = d)
    (hd : 0 < d) (_hn : 0 < nTrees)
    (hpt : point.length = d)
    (hs : 1 < min sampleSize data.length) :
    (IsolationForest.fit data nTrees sampleSize rng).1.scoreInBounds point ∧
    0 < (IsolationForest.fit data nTrees sampleSize rng).1.score point ∧
    (IsolationForest.fit data nTrees sampleSize rng).1.score point ≤ 1 := by
  constructor
  · intro t ht
    simp only [IsolationForest.fit] at ht
    exact featuresLt_inBounds _ _ _
      (buildTrees_featuresLt hd data hdata hrect _ _ _ _ t ht) (le_of_eq hpt.symm)
  · have hss : (IsolationForest.fit data nTrees sampleSize rng).1.sample_size =
        min sampleSize data.length := rfl
    exact score_mem_Ioc _ point (by rw [hss]; exact hs)

/-- C1 witness: a concrete forest fit on `[[0], [10]]` with one tree and
requested sample size 2, scored at the in-dimension point `[3]`. -/
theorem fit_score_mem_Ioc_witness :
    (IsolationForest.fit [[0], [10]] 1 2 rngDemo).1.scoreInBounds [3] ∧
    0 < (IsolationForest.fit [[0], [10]] 1 2 rngDemo).1.score [3] ∧
    (IsolationForest.fit [[0], [10]] 1 2 rngDemo).1.score [3] ≤ 1 := by
  refine fit_score_mem_Ioc [[0], [10]] 1 1 2 rngDemo [3] (by simp) ?_
    (by norm_num) (by norm_num) (by simp) (by simp)
  intro v hv
  simp only [List.mem_cons] at hv
  rcases hv with h | h | h
  · subst h; rfl
  · subst h; rfl
  · simp at h

/-- C6: any forest whose stored sample size is at most 1 has
`c(sample_size) = 0`, so `score` short-circuits to exactly `0.5` (the
division never happens), and a detector holding such a forest with a
threshold above `0.5` never emits a report from `process`. -/
theorem degenerate_sample_size_neutral (F : IsolationForest)
    (hF : F.sample_size ≤ 1) :
    (∀ point : List ℝ, F.score point = 0.5) ∧
    (∀ (d : Detector) (v : List ℝ), d.forest = some F →
      (0.5 : ℝ) < d.config.threshold → (d.process v).2 = none) := by
  have hsc : ∀ point : List ℝ, F.score point = 0.5 := by
    intro point
    rw [IsolationForest.score, if_pos (c_of_le_one (by exact_mod_cast hF))]
  refine ⟨hsc, ?_⟩
  intro d v hforest hthr
  simp only [Detector.process, hforest]
  rw [hsc v, if_neg (not_le.mpr hthr)]

/-- C6 witness: the degenerate one-sample forest scores `[0]` at exactly
`0.5`, and the demo detector (threshold `0.6`) emits no report. -/
theorem degenerate_sample_size_neutral_witness :
    forestDeg.score [0] = 0.5 ∧ (detectorDeg.process [0]).2 = none :=
  ⟨(degenerate_sample_size_neutral forestDeg (by norm_num [forestDeg])).1 [0],
   (degenerate_sample_size_neutral forestDeg (by norm_num [forestDeg])).2
     detectorDeg [0] rfl (by norm_num [detectorDeg, cfgDemo])⟩

/-! ### Structure of `IsolationForest::fit` -/

theorem buildTrees_length (data : List (List ℝ)) (actual maxDepth : ℕ) :
    ∀ (n : ℕ) (r : Rng), (buildTrees data actual maxDepth n r).1.length = n := by
  intro n
  induction n with
  | zero => intro r; simp [buildTrees]
  | succ n ih => intro r; simp [buildTrees, ih]

theorem buildTrees_mem_spec (data : List (List ℝ)) (hne : data ≠ [])
    (actual maxDepth : ℕ) :
    ∀ (n : ℕ) (r : Rng), ∀ t ∈ (buildTrees data actual maxDepth n r).1,
      ∃ (sub : List (List ℝ)) (r' : Rng),
        sub.length = actual ∧ (∀ v ∈ sub, v ∈ data) ∧
        t = (IsolationTree.fit sub maxDepth r').1 := by
  intro n
  induction n with
  | zero => intro r t ht; simp [buildTrees] at ht
  | succ n ih =>
    intro r t ht
    simp only [buildTrees, List.mem_cons] at ht
    rcases ht with h | h
    · exact ⟨(drawSubsample data actual r).1, (drawSubsample data actual r).2,
        drawSubsample_length data actual r,
        fun v hv => drawSubsample_mem data hne actual r v hv, h⟩
    · exact ih _ t h

/-- C7: `fit` on non-empty data builds exactly `n_trees` trees, each fitted
with the shared depth bound `Nat.clog 2 sample_size` (the Rust
`ceil(log2(sample_size))`, computed from the requested size) on a
with-replacement subsample of `actual = min sample_size |data|` points of
`data`, and stores `actual` as the forest's sample size; the final
conjunct characterises the depth bound as the ceiling of `log₂` of the
requested size. -/
theorem fit_structure (data : List (List ℝ)) (nTrees sampleSize : ℕ)
    (rng : Rng) (hne : data ≠ []) :
    (IsolationForest.fit data nTrees sampleSize rng).1.trees.length = nTrees ∧
    (IsolationForest.fit data nTrees sampleSize rng).1.sample_size =
      min sampleSize data.length ∧
    (∀ t ∈ (IsolationForest.fit data nTrees sampleSize rng).1.trees,
      ∃ (sub : List (List ℝ)) (r : Rng),
        sub.length = min sampleSize data.length ∧ (∀ v ∈ sub, v ∈ data) ∧
        t = (IsolationTree.fit sub (Nat.clog 2 sampleSize) r).1) ∧
    (sampleSize ≤ 2 ^ Nat.clog 2 sampleSize ∧
      (1 < sampleSize → 2 ^ (Nat.clog 2 sampleSize - 1) < sampleSize)) :=
  ⟨buildTrees_length data _ _ nTrees rng, rfl,
   fun t ht => buildTrees_mem_spec data hne _ _ nTrees rng t ht,
   Nat.le_pow_clog one_lt_two _,
   fun h => Nat.pow_pred_clog_lt_self one_lt_two h⟩

/-- C7 witness: the structure of `fit` on the concrete call
`fit [[0], [10]] 1 2 rngDemo`. -/
theorem fit_structure_witness :
    (IsolationForest.fit [[0], [10]] 1 2 rngDemo).1.trees.length = 1 ∧
    (IsolationForest.fit [[0], [10]] 1 2 rngDemo).1.sample_size =
      min 2 ([[(0 : ℝ)], [10]].length) ∧
    (∀ t ∈ (IsolationForest.fit [[0], [10]] 1 2 rngDemo).1.trees,
      ∃ (sub : List (List ℝ)) (r : Rng),
        sub.length = min 2 ([[(0 : ℝ)], [10]].length) ∧
        (∀ v ∈ sub, v ∈ [[(0 : ℝ)], [10]]) ∧
        t = (IsolationTree.fit sub (Nat.clog 2 2) r).1) ∧
    (2 ≤ 2 ^ Nat.clog 2 2 ∧ (1 < 2 → 2 ^ (Nat.clog 2 2 - 1) < 2)) :=
  fit_structure [[0], [10]] 1 2 rngDemo (by simp)

/-! ### Folded minimum / maximum over a partition (the min/max scan of
`build_node`) -/

theorem foldl_min_le_init (g : List ℝ → ℝ) :
    ∀ (l : List (List ℝ)) (a : ℝ),
      l.foldl (fun m s => min m (g s)) a ≤ a := by
  intro l
  induction l with
  | nil => intro a; simp
  | cons y ys ih =>
    intro a
    simp only [List.foldl_cons]
    exact le_trans (ih (min a (g y))) (min_le_left _ _)

theorem foldl_min_le_elem (g : List ℝ → ℝ) :
    ∀ (l : List (List ℝ)) (a : ℝ) (x : List ℝ), x ∈ l →
      l.foldl (fun m s => min m (g s)) a ≤ g x := by
  intro l
  induction l with
  | nil => intro a x hx; simp at hx
  | cons y ys ih =>
    intro a x hx
    simp only [List.foldl_cons]
    rcases List.mem_cons.mp hx with h | h
    · subst h
      exact le_trans (foldl_min_le_init g ys (min a (g x))) (min_le_right _ _)
    · exact ih _ x h

theorem foldl_min_eq_init_or_mem (g : List ℝ → ℝ) :
    ∀ (l : List (List ℝ)) (a : ℝ),
      l.foldl (fun m s => min m (g s)) a = a ∨
      ∃ x ∈ l, l.foldl (fun m s => min m (g s)) a = g x := by
  intro l
  induction l with
  | nil => intro a; left; rfl
  | cons y ys ih =>
    intro a
    simp only [List.foldl_cons]
    rcases ih (min a (g y)) with h | ⟨x, hx, h⟩
    · rcases min_choice a (g y) with hm | hm
      · left; rw [h, hm]
      · right; exact ⟨y, List.mem_cons_self y ys, by rw [h, hm]⟩
    · right; exact ⟨x, List.mem_cons_of_mem y hx, h⟩

theorem foldl_max_ge_init (g : List ℝ → ℝ) :
    ∀ (l : List (List ℝ)) (a : ℝ),
      a ≤ l.foldl (fun m s => max m (g s)) a := by
  intro l
  induction l with
  | nil => intro a; simp
  | cons y ys ih =>
    intro a
    simp only [List.foldl_cons]
    exact le_trans (le_max_left _ _) (ih (max a (g y)))

theorem foldl_max_ge_elem (g : List ℝ → ℝ) :
    ∀ (l : List (List ℝ)) (a : ℝ) (x : List ℝ), x ∈ l →
      g x ≤ l.foldl (fun m s => max m (g s)) a := by
  intro l
  induction l with
  | nil => intro a x hx; simp at hx
  | cons y ys ih =>
    intro a x hx
    simp only [List.foldl_cons]
    rcases List.mem_cons.mp hx with h | h
    · subst h
      exact le_trans (le_max_right _ _) (foldl_max_ge_init g ys (max a (g x)))
    · exact ih _ x h

theorem foldl_max_eq_init_or_mem (g : List ℝ → ℝ) :
    ∀ (l : List (List ℝ)) (a : ℝ),
      l.foldl (fun m s => max m (g s)) a = a ∨
      ∃ x ∈ l, l.foldl (fun m s => max m (g s)) a = g x := by
  intro l
  induction l with
  | nil => intro a; left; rfl
  | cons y ys ih =>
    intro a
    simp only [List.foldl_cons]
    rcases ih (max a (g y)) with h | ⟨x, hx, h⟩
    · rcases max_choice a (g y) with hm | hm
      · left; rw [h, hm]
      · right; exact ⟨y, List.mem_cons_self y ys, by rw [h, hm]⟩
    · right; exact ⟨x, List.mem_cons_of_mem y hx, h⟩

open Classical in
/-- C9: whenever `build_node` produces a branch node on a partition of
rectangular, f64-bounded data, the split feature is in range, the threshold
lies strictly inside the open interval of the chosen feature's values over
the partition (some value below it, some value above it), and the children
are built from the `< threshold` / `≥ threshold` partitions. -/
theorem build_node_branch_spec
    {d : ℕ} (data : List (List ℝ)) (depth maxDepth : ℕ) (rng : Rng)
    (f : ℕ) (th : ℝ) (l r : IsolationNode) (rng' : Rng)
    (hrect : ∀ v ∈ data, v.length = d) (hd : 0 < d)
    (hbdd : ∀ v ∈ data, ∀ x ∈ v, |x| ≤ f64MAX)
    (h : build_node data depth maxDepth rng = (.branch f th l r, rng')) :
    f < d ∧
    (∃ u ∈ data, u.getD f 0 < th) ∧
    (∃ w ∈ data, th < w.getD f 0) ∧
    (∃ r1 r2 : Rng,
      (l, r2) = build_node (data.filter fun s => decide (s.getD f 0 < th))
        (depth + 1) maxDepth r1 ∧
      (r, rng') = build_node (data.filter fun s => decide (¬ s.getD f 0 < th))
        (depth + 1) maxDepth r2) := by
  rw [build_node] at h
  by_cases h1 : maxDepth ≤ depth ∨ data.length ≤ 1
  · rw [dif_pos h1] at h
    simp at h
  · rw [dif_neg h1] at h
    push_neg at h1
    obtain ⟨hdep, hlen2⟩ := h1
    dsimp only at h
    split at h
    · simp at h
    · rename_i h2
      split at h
      · simp at h
      · rename_i h3
        rw [Prod.mk.injEq, IsolationNode.branch.injEq] at h
        obtain ⟨⟨hfe, hth, hl, hr⟩, hrng⟩ := h
        subst hfe
        subst hth
        subst hl
        subst hr
        subst hrng
        have hne : data ≠ [] := by
          intro hnil
          rw [hnil] at hlen2
          simp at hlen2
        have hf : (rng.genNat data.headI.length).1 < d := by
          cases data with
          | nil => exact absurd rfl hne
          | cons x xs =>
            simp only [List.headI, Rng.genNat]
            rw [hrect x (List.mem_cons_self x xs)]
            exact Nat.mod_lt _ hd
        refine ⟨hf, ?_, ?_, ?_⟩
        · rw [not_or] at h3
          obtain ⟨h3l, _⟩ := h3
          have hLne : (data.filter fun s =>
              decide (s.getD (rng.genNat data.headI.length).1 0 <
                (Rng.genReal (rng.genNat data.headI.length).2
                  (data.foldl (fun m s =>
                    min m (s.getD (rng.genNat data.headI.length).1 0)) f64MAX)
                  (data.foldl (fun m s =>
                    max m (s.getD (rng.genNat data.headI.length).1 0)) f64MIN)).1)) ≠
              [] := by
            intro hnil
            rw [hnil] at h3l
            simp at h3l
          obtain ⟨u, hu⟩ := List.exists_mem_of_ne_nil _ hLne
          rw [List.mem_filter] at hu
          exact ⟨u, hu.1, of_decide_eq_true hu.2⟩
        · -- the threshold is strictly below the attained maximum
          obtain ⟨x0, hx0⟩ := List.exists_mem_of_ne_nil _ hne
          have hmM :
              data.foldl (fun m s =>
                  min m (s.getD (rng.genNat data.headI.length).1 0)) f64MAX ≤
              data.foldl (fun m s =>
                  max m (s.getD (rng.genNat data.headI.length).1 0)) f64MIN :=
            le_trans
              (foldl_min_le_elem (fun s => s.getD (rng.genNat data.headI.length).1 0)
                data f64MAX x0 hx0)
              (foldl_max_ge_elem (fun s => s.getD (rng.genNat data.headI.length).1 0)
                data f64MIN x0 hx0)
          have heps := not_lt.mp h2
          rw [abs_of_nonneg (by linarith)] at heps
          have hepspos : (0 : ℝ) < f64EPSILON := by norm_num [f64EPSILON]
          have hmltM :
              data.foldl (fun m s =>
                  min m (s.getD (rng.genNat data.headI.length).1 0)) f64MAX <
              data.foldl (fun m s =>
                  max m (s.getD (rng.genNat data.headI.length).1 0)) f64MIN := by
            linarith
          have hu0 := ((rng.genNat data.headI.length).2).reals_lb
            ((rng.genNat data.headI.length).2).pos
          have hu1 := ((rng.genNat data.headI.length).2).reals_ub
            ((rng.genNat data.headI.length).2).pos
          have hthM :
              (Rng.genReal (rng.genNat data.headI.length).2
                (data.foldl (fun m s =>
                  min m (s.getD (rng.genNat data.headI.length).1 0)) f64MAX)
                (data.foldl (fun m s =>
                  max m (s.getD (rng.genNat data.headI.length).1 0)) f64MIN)).1 <
              data.foldl (fun m s =>
                  max m (s.getD (rng.genNat data.headI.length).1 0)) f64MIN := by
            rw [Rng.genReal]
            simp only
            nlinarith
          have hlow : ∀ v ∈ data,
              -f64MAX ≤ v.getD (rng.genNat data.headI.length).1 0 := by
            intro v hv
            have hvf : (rng.genNat data.headI.length).1 < v.length :=
              (hrect v hv) ▸ hf
            rw [List.getD_eq_getElem _ _ hvf]
            exact (abs_le.mp (hbdd v hv _ (List.getElem_mem hvf))).1
          rcases foldl_max_eq_init_or_mem
              (fun s => s.getD (rng.genNat data.headI.length).1 0) data f64MIN with
            hM | ⟨w, hw, hMw⟩
          · exfalso
            rcases foldl_min_eq_init_or_mem
                (fun s => s.getD (rng.genNat data.headI.length).1 0) data f64MAX with
              hm | ⟨y, hy, hmy⟩
            · rw [hm, hM] at hmltM
              norm_num [f64MAX, f64MIN] at hmltM
            · have h1 := hlow y hy
              have h2' : f64MIN = -f64MAX := rfl
              rw [hmy, hM] at hmltM
              rw [h2'] at hmltM
              linarith
          · exact ⟨w, hw, hMw ▸ hthM⟩
        · exact ⟨_, _, (Prod.mk.eta).symm, (Prod.mk.eta).symm⟩

/-! ### Concrete evaluation of tree construction (witness inputs) -/

theorem build_node_demo (r : Rng) (hr : r.reals (r.pos + 1) = 1 / 2) :
    build_node [[(0 : ℝ)], [10]] 0 1 r =
      (.branch 0 5 (.leaf 1) (.leaf 1), r.next.next) := by
  rw [build_node]
  rw [dif_neg (by simp)]
  norm_num [Rng.genNat, Rng.genReal, Rng.next, List.headI, List.getD_cons_zero,
    Nat.mod_one, List.foldl_cons, List.foldl_nil, List.filter_cons,
    List.filter_nil, f64EPSILON, f64MAX, f64MIN, hr, min_def, max_def]
  rw [build_node, dif_pos (Or.inl le_rfl), build_node, dif_pos (Or.inl le_rfl)]
  norm_num

open Classical in
/-- C9 witness: the branch produced by `build_node` on `[[0], [10]]` with
the demo oracle splits feature 0 at threshold 5, strictly between the
feature values 0 and 10, with singleton partitions on each side. -/
theorem build_node_branch_spec_witness :
    0 < 1 ∧
    (∃ u ∈ [[(0 : ℝ)], [10]], u.getD 0 0 < 5) ∧
    (∃ w ∈ [[(0 : ℝ)], [10]], (5 : ℝ) < w.getD 0 0) ∧
    (∃ r1 r2 : Rng,
      ((IsolationNode.leaf 1 : IsolationNode), r2) =
        build_node ([[(0 : ℝ)], [10]].filter fun s => decide (s.getD 0 0 < 5))
          (0 + 1) 1 r1 ∧
      ((IsolationNode.leaf 1 : IsolationNode), rngDemo.next.next) =
        build_node ([[(0 : ℝ)], [10]].filter fun s => decide (¬ s.getD 0 0 < 5))
          (0 + 1) 1 r2) := by
  refine build_node_branch_spec (d := 1) [[0], [10]] 0 1 rngDemo 0 5
    (.leaf 1) (.leaf 1) rngDemo.next.next ?_ (by norm_num) ?_
    (build_node_demo rngDemo rfl)
  · intro v hv
    simp only [List.mem_cons] at hv
    rcases hv with h | h | h
    · subst h; rfl
    · subst h; rfl
    · simp at h
  · intro v hv x hx
    simp only [List.mem_cons] at hv
    rcases hv with h | h | h
    · subst h
      simp only [List.mem_cons] at hx
      rcases hx with h' | h'
      · subst h'; norm_num [f64MAX]
      · simp at h'
    · subst h
      simp only [List.mem_cons] at hx
      rcases hx with h' | h'
      · subst h'; norm_num [f64MAX]
      · simp at h'
    · simp at h

theorem drawSubsample_demo : drawSubsample [[(0 : ℝ)], [10]] 2 rngDemo =
    ([[0], [10]], rngDemo.next.next) := by
  show drawSubsample [[(0 : ℝ)], [10]] (0 + 1 + 1) rngDemo = _
  simp only [drawSubsample, Rng.genNat, Rng.next]
  norm_num [rngDemo]

theorem fit_demo :
    (IsolationForest.fit [[(0 : ℝ)], [10]] 1 2 rngDemo).1 =
      { trees := [⟨.branch 0 5 (.leaf 1) (.leaf 1)⟩], sample_size := 2 } := by
  have hclog : Nat.clog 2 2 = 1 := Nat.clog_eq_one le_rfl le_rfl
  have hb := build_node_demo rngDemo.next.next rfl
  have htree : buildTrees [[(0 : ℝ)], [10]] 2 1 1 rngDemo =
      ([⟨.branch 0 5 (.leaf 1) (.leaf 1)⟩], rngDemo.next.next.next.next) := by
    show buildTrees [[(0 : ℝ)], [10]] 2 1 (0 + 1) rngDemo = _
    simp only [buildTrees, drawSubsample_demo, IsolationTree.fit, hb]
  simp only [IsolationForest.fit, hclog, List.length_cons, List.length_nil,
    Nat.min_self, htree]

open Classical in
/-- C5 counterexample: the forest fit on one-dimensional data `[[0], [10]]`
is asked to score the two-dimensional point `[7, 9]`; the traversal stays
silently in bounds (and hence yields a score) instead of failing fast with
a `DimensionMismatch` error — no such error exists in the code. -/
theorem dimension_mismatch_silent :
    (∀ v ∈ [[(0 : ℝ)], [10]], v.length = 1) ∧
    [(7 : ℝ), 9].length ≠ 1 ∧
    (IsolationForest.fit [[(0 : ℝ)], [10]] 1 2 rngDemo).1.scoreInBounds [7, 9] := by
  refine ⟨?_, by norm_num, ?_⟩
  · intro v hv
    simp only [List.mem_cons] at hv
    rcases hv with h | h | h
    · subst h; rfl
    · subst h; rfl
    · simp at h
  · rw [fit_demo]
    intro t ht
    simp only [List.mem_cons] at ht
    rcases ht with h | h
    · subst h
      refine ⟨by norm_num, fun hc => ?_, fun _ => trivial⟩
      norm_num [List.getD_cons_zero] at hc
    · simp at h

/-- C5 amended: scoring performs no dimension check — for any forest fit on
non-empty rectangular data of positive dimensionality `d`, any point with
at least `d` coordinates (in particular any longer, mismatched vector) is
traversed silently in bounds and scored; no `DimensionMismatch` error
exists. (A shorter vector may instead index out of bounds, a panic.) -/
theorem fit_scoreInBounds_of_ge_dim
    (data : List (List ℝ)) (d nTrees sampleSize : ℕ) (rng : Rng)
    (point : List ℝ)
    (hne : data ≠ []) (hrect : ∀ v ∈ data, v.length = d) (hd : 0 < d)
    (hpt : d ≤ point.length) :
    (IsolationForest.fit data nTrees sampleSize rng).1.scoreInBounds point := by
  intro t ht
  simp only [IsolationForest.fit] at ht
  exact featuresLt_inBounds _ _ _
    (buildTrees_featuresLt hd data hne hrect _ _ _ _ t ht) hpt

/-- C5 amended witness: the demo forest (trained on dimensionality 1)
silently scores the longer point `[3, 4]`. -/
theorem fit_scoreInBounds_of_ge_dim_witness :
    (IsolationForest.fit [[(0 : ℝ)], [10]] 1 2 rngDemo).1.scoreInBounds [3, 4] := by
  refine fit_scoreInBounds_of_ge_dim [[0], [10]] 1 1 2 rngDemo [3, 4]
    (by simp) ?_ (by norm_num) (by norm_num)
  intro v hv
  simp only [List.mem_cons] at hv
  rcases hv with h | h | h
  · subst h; rfl
  · subst h; rfl
  · simp at h

/-! ### Step and run lemmas for the streaming detector -/

theorem run_nil (d : Detector) : d.run [] = d := rfl

theorem run_cons (d : Detector) (v : List ℝ) (vs : List (List ℝ)) :
    d.run (v :: vs) = ((d.process v).1).run vs := rfl

theorem run_append (d : Detector) (l1 l2 : List (List ℝ)) :
    d.run (l1 ++ l2) = (d.run l1).run l2 :=
  List.foldl_append _ _ l1 l2

theorem run_concat (d : Detector) (l : List (List ℝ)) (v : List ℝ) :
    d.run (l ++ [v]) = ((d.run l).process v).1 := by
  rw [run_append]
  rfl

/-- One `process` call in the Buffering state: count the event, push, and
train exactly when the buffer has reached `buffer_size`; never report. -/
theorem process_untrained (d : Detector) (v : List ℝ) (h : d.forest = none) :
    d.process v =
      (if d.config.buffer_size ≤ (d.buffer ++ [v]).length
       then Detector.train
         { d with
             total_events := d.total_events + 1
             buffer := d.buffer ++ [v] }
       else
         { d with
             total_events := d.total_events + 1
             buffer := d.buffer ++ [v] },
       none) := by
  simp only [Detector.process, h]

/-- One `process` call in the Detecting state, componentwise: sliding
buffer, event count, config frame, the report (scored with the pre-call
forest), the retrain case and the no-retrain case. -/
theorem process_trained (d : Detector) (v : List ℝ) (F : IsolationForest)
    (h : d.forest = some F) :
    (d.process v).1.buffer = slide d.config.buffer_size (d.buffer ++ [v]) ∧
    (d.process v).1.total_events = d.total_events + 1 ∧
    (d.process v).1.config = d.config ∧
    ((d.process v).2 = if d.config.threshold ≤ F.score v
      then some { features := v, score := F.score v,
                  event_number := d.total_events + 1 }
      else none) ∧
    (d.config.retrain_interval ≤ d.events_since_train + 1 →
      (d.process v).1.events_since_train = 0 ∧
      (d.process v).1.forest = some (IsolationForest.fit
        (slide d.config.buffer_size (d.buffer ++ [v]))
        d.config.n_trees d.config.buffer_size d.rng).1 ∧
      (d.process v).1.rng = (IsolationForest.fit
        (slide d.config.buffer_size (d.buffer ++ [v]))
        d.config.n_trees d.config.buffer_size d.rng).2) ∧
    (d.events_since_train + 1 < d.config.retrain_interval →
      (d.process v).1.events_since_train = d.events_since_train + 1 ∧
      (d.process v).1.forest = some F ∧
      (d.process v).1.rng = d.rng) := by
  simp only [Detector.process, h]
  refine ⟨?_, ?_, ?_, ?_, ?_, ?_⟩
  · split_ifs <;> simp [Detector.train]
  · split_ifs <;> simp [Detector.train]
  · split_ifs <;> simp [Detector.train]
  · split_ifs <;> simp [Detector.train]
  · intro hre
    refine ⟨?_, ?_, ?_⟩ <;> split_ifs <;> simp [hre, Detector.train]
  · intro hlt
    have hre : ¬ d.config.retrain_interval ≤ d.events_since_train + 1 := by
      omega
    refine ⟨?_, ?_, ?_⟩ <;> split_ifs <;> simp [hre, Detector.train]

theorem process_config (d : Detector) (v : List ℝ) :
    (d.process v).1.config = d.config := by
  cases h : d.forest with
  | none =>
    rw [process_untrained d v h]
    split_ifs <;> simp [Detector.train]
  | some F => exact (process_trained d v F h).2.2.1

theorem run_config (obs : List (List ℝ)) :
    ∀ d : Detector, (d.run obs).config = d.config := by
  induction obs with
  | nil => intro d; rfl
  | cons v vs ih =>
    intro d
    rw [run_cons, ih, process_config]

theorem process_trained_isSome (d : Detector) (v : List ℝ)
    (F : IsolationForest) (h : d.forest = some F) :
    ((d.process v).1).forest.isSome := by
  by_cases hre : d.config.retrain_interval ≤ d.events_since_train + 1
  · rw [((process_trained d v F h).2.2.2.2.1 hre).2.1]
    rfl
  · have hlt : d.events_since_train + 1 < d.config.retrain_interval := by
      omega
    rw [((process_trained d v F h).2.2.2.2.2 hlt).2.1]
    rfl

theorem run_isSome (obs : List (List ℝ)) :
    ∀ d : Detector, d.forest.isSome → ((d.run obs).forest).isSome := by
  induction obs with
  | nil => intro d h; exact h
  | cons v vs ih =>
    intro d h
    rw [run_cons]
    obtain ⟨F, hF⟩ := Option.isSome_iff_exists.mp h
    exact ih _ (process_trained_isSome d v F hF)

/-- While fewer than `buffer_size` observations have been processed, the
detector from `new` is still the buffering state with the processed prefix
as its buffer. -/
theorem run_buffering (cfg : DetectorConfig) (rng : Rng)
    (obs : List (List ℝ)) :
    ∀ i, i ≤ obs.length → i < cfg.buffer_size →
      (Detector.new cfg rng).run (obs.take i) =
        { config := cfg, forest := none, buffer := obs.take i,
          events_since_train := 0, total_events := i, total_anomalies := 0,
          rng := rng } := by
  intro i
  induction i with
  | zero => intro _ _; rfl
  | succ i ih =>
    intro hi hbs
    have hlt : i < obs.length := by omega
    have htake : obs.take (i + 1) = obs.take i ++ [obs[i]] := by
      rw [List.take_succ, List.getElem?_eq_getElem hlt]
      rfl
    rw [htake, run_concat, ih (by omega) (by omega),
      process_untrained _ _ rfl]
    have hlen : (obs.take i ++ [obs[i]]).length = i + 1 := by
      simp only [List.length_append, List.length_take, List.length_cons,
        List.length_nil]
      omega
    have hcond : ¬ cfg.buffer_size ≤ i + 1 := by omega
    simp [hlen, hcond]

/-- The `buffer_size`-th observation triggers the Buffering→Detecting
transition: the run of length `buffer_size` ends in training on the full
buffered prefix. -/
theorem run_take_bs (cfg : DetectorConfig) (rng : Rng)
    (obs : List (List ℝ)) (hbs : 0 < cfg.buffer_size)
    (hlen : cfg.buffer_size ≤ obs.length) :
    (Detector.new cfg rng).run (obs.take cfg.buffer_size) =
      Detector.train
        { config := cfg, forest := none,
          buffer := obs.take cfg.buffer_size, events_since_train := 0,
          total_events := cfg.buffer_size, total_anomalies := 0,
          rng := rng } := by
  obtain ⟨j, hj⟩ : ∃ j, cfg.buffer_size = j + 1 :=
    ⟨cfg.buffer_size - 1, by omega⟩
  rw [hj]
  have hjlt : j < obs.length := by omega
  have htake : obs.take (j + 1) = obs.take j ++ [obs[j]] := by
    rw [List.take_succ, List.getElem?_eq_getElem hjlt]
    rfl
  rw [htake, run_concat, run_buffering cfg rng obs j (by omega) (by omega),
    process_untrained _ _ rfl]
  have hlen2 : (obs.take j ++ [obs[j]]).length = j + 1 := by
    simp only [List.length_append, List.length_take, List.length_cons,
      List.length_nil]
    omega
  simp [hj, hlen2]
  intro hcontra
  exact absurd hcontra (by omega)

/-- C2: starting from `Detector::new`, the trained flag first becomes true
exactly on the `buffer_size`-th `process` call (at which point the buffer
has just reached `buffer_size` entries, having held `i` entries after `i`
earlier calls), and every call whose index is at most `buffer_size` —
including the transition call itself — returns no report. -/
theorem detector_buffering_transition (cfg : DetectorConfig) (rng : Rng)
    (obs : List (List ℝ)) (hbs : 0 < cfg.buffer_size) :
    (∀ i ≤ obs.length,
      (((Detector.new cfg rng).run (obs.take i)).is_trained = true ↔
        cfg.buffer_size ≤ i)) ∧
    (∀ i ≤ obs.length, i < cfg.buffer_size →
      ((Detector.new cfg rng).run (obs.take i)).buffer.length = i) ∧
    (∀ j < obs.length, j < cfg.buffer_size →
      (((Detector.new cfg rng).run (obs.take j)).process (obs.getD j [])).2 =
        none) := by
  refine ⟨?_, ?_, ?_⟩
  · intro i hi
    constructor
    · intro htr
      by_contra hc
      push_neg at hc
      rw [run_buffering cfg rng obs i hi hc] at htr
      simp [Detector.is_trained] at htr
    · intro hbsi
      have hsplit : obs.take i =
          obs.take cfg.buffer_size ++ ((obs.take i).drop cfg.buffer_size) := by
        conv_lhs => rw [← List.take_append_drop cfg.buffer_size (obs.take i)]
        rw [List.take_take, min_eq_left hbsi]
      rw [Detector.is_trained, hsplit, run_append]
      apply run_isSome
      rw [run_take_bs cfg rng obs hbs (le_trans hbsi hi)]
      rfl
  · intro i hi hlt
    rw [run_buffering cfg rng obs i hi hlt]
    simp only [List.length_take]
    omega
  · intro j hj hlt
    rw [run_buffering cfg rng obs j (le_of_lt hj) hlt,
      process_untrained _ _ rfl]

/-- C2 witness: with `buffer_size = 1` and the single observation `[0]`,
the detector is untrained after 0 calls, trained after 1, and the
transition call returns no report. -/
theorem detector_buffering_transition_witness :
    (∀ i ≤ ([[(0 : ℝ)]] : List (List ℝ)).length,
      (((Detector.new cfgDemo rngDemo).run ([[(0 : ℝ)]].take i)).is_trained =
          true ↔ cfgDemo.buffer_size ≤ i)) ∧
    (∀ i ≤ ([[(0 : ℝ)]] : List (List ℝ)).length, i < cfgDemo.buffer_size →
      ((Detector.new cfgDemo rngDemo).run
        ([[(0 : ℝ)]].take i)).buffer.length = i) ∧
    (∀ j < ([[(0 : ℝ)]] : List (List ℝ)).length, j < cfgDemo.buffer_size →
      (((Detector.new cfgDemo rngDemo).run ([[(0 : ℝ)]].take j)).process
        ([[(0 : ℝ)]].getD j [])).2 = none) :=
  detector_buffering_transition cfgDemo rngDemo [[0]] Nat.one_pos

theorem slide_length_le (bs : ℕ) (b : List (List ℝ)) :
    (slide bs b).length ≤ 2 * bs := by
  rw [slide]
  split_ifs with h
  · simp only [List.length_drop]
    omega
  · omega

/-- One `process` call preserves the buffer invariant: an untrained
detector holds fewer than `buffer_size` entries, and every detector holds
at most `2 * buffer_size` entries. -/
theorem process_inv (d : Detector) (v : List ℝ)
    (h1 : d.forest = none → d.buffer.length < d.config.buffer_size)
    (h2 : d.buffer.length ≤ 2 * d.config.buffer_size) :
    ((d.process v).1.forest = none →
      (d.process v).1.buffer.length < d.config.buffer_size) ∧
    (d.process v).1.buffer.length ≤ 2 * d.config.buffer_size := by
  cases h : d.forest with
  | none =>
    have hlt := h1 h
    rw [process_untrained d v h]
    split_ifs with hc
    · constructor
      · intro habs
        simp [Detector.train] at habs
      · simp only [Detector.train]
        simp only [List.length_append, List.length_cons, List.length_nil]
        omega
    · constructor
      · intro _
        simp only [List.length_append, List.length_cons, List.length_nil]
        simp only [List.length_append, List.length_cons, List.length_nil] at hc
        omega
      · simp only [List.length_append, List.length_cons, List.length_nil]
        omega
  | some F =>
    constructor
    · intro habs
      have hs := process_trained_isSome d v F h
      rw [habs] at hs
      simp at hs
    · rw [(process_trained d v F h).1]
      exact slide_length_le _ _

theorem run_buffer_le (obs : List (List ℝ)) :
    ∀ d : Detector, 0 < d.config.buffer_size →
      (d.forest = none → d.buffer.length < d.config.buffer_size) →
      d.buffer.length ≤ 2 * d.config.buffer_size →
      (((d.run obs).forest = none →
        (d.run obs).buffer.length < d.config.buffer_size) ∧
       (d.run obs).buffer.length ≤ 2 * d.config.buffer_size) := by
  induction obs with
  | nil => intro d _ h1 h2; exact ⟨h1, h2⟩
  | cons v vs ih =>
    intro d hbs h1 h2
    rw [run_cons]
    have hstep := process_inv d v h1 h2
    have hcfg := process_config d v
    have hrec := ih ((d.process v).1) (by rw [hcfg]; exact hbs)
      (by rw [hcfg]; exact hstep.1) (by rw [hcfg]; exact hstep.2)
    rwa [hcfg] at hrec

/-- C4: from `Detector::new` with a positive `buffer_size`, the buffer
never exceeds `2 * buffer_size` entries at the start of any `process` call;
and in the Detecting state a call makes the new buffer
`slide buffer_size (old ++ [v])`, so whenever the appended buffer exceeds
`2 * buffer_size` the oldest `len − buffer_size` entries are dropped and
the buffer returns to exactly `buffer_size` entries. -/
theorem detector_buffer_bound :
    (∀ (cfg : DetectorConfig) (rng : Rng) (obs : List (List ℝ)),
      0 < cfg.buffer_size →
      ((Detector.new cfg rng).run obs).buffer.length ≤ 2 * cfg.buffer_size) ∧
    (∀ (d : Detector) (v : List ℝ) (F : IsolationForest),
      d.forest = some F →
      ((d.process v).1.buffer = slide d.config.buffer_size (d.buffer ++ [v]) ∧
       (d.config.buffer_size * 2 < (d.buffer ++ [v]).length →
         (d.process v).1.buffer =
           (d.buffer ++ [v]).drop
             ((d.buffer ++ [v]).length - d.config.buffer_size) ∧
         (d.process v).1.buffer.length = d.config.buffer_size))) := by
  constructor
  · intro cfg rng obs hbs
    exact (run_buffer_le obs (Detector.new cfg rng) hbs
      (fun _ => hbs) (by simp [Detector.new])).2
  · intro d v F h
    refine ⟨(process_trained d v F h).1, ?_⟩
    intro hc
    rw [(process_trained d v F h).1, slide, if_pos hc]
    refine ⟨rfl, ?_⟩
    simp only [List.length_drop]
    simp only [List.length_append, List.length_cons, List.length_nil] at hc ⊢
    omega

/-- C4 witness: the bound after one observation from `new`, and the
eviction equation for one Detecting-state call of the demo detector. -/
theorem detector_buffer_bound_witness :
    ((Detector.new cfgDemo rngDemo).run [[0]]).buffer.length ≤
      2 * cfgDemo.buffer_size ∧
    ((detectorDeg.process [0]).1.buffer =
      slide detectorDeg.config.buffer_size (detectorDeg.buffer ++ [[0]]) ∧
     (detectorDeg.config.buffer_size * 2 <
        (detectorDeg.buffer ++ [[0]]).length →
       (detectorDeg.process [0]).1.buffer =
         (detectorDeg.buffer ++ [[0]]).drop
           ((detectorDeg.buffer ++ [[0]]).length -
             detectorDeg.config.buffer_size) ∧
       (detectorDeg.process [0]).1.buffer.length =
         detectorDeg.config.buffer_size)) :=
  ⟨detector_buffer_bound.1 cfgDemo rngDemo [[0]] Nat.one_pos,
   detector_buffer_bound.2 detectorDeg [0] forestDeg rfl⟩

/-- C3: from a freshly (re)trained Detecting state (counter 0, forest `F`),
no retrain happens during the next `retrain_interval − 1` calls (the forest
stays `F` and the counter counts up), and the `retrain_interval`-th call
retrains: its resulting counter is 0 and its forest is fit on the
post-eviction buffer with the pre-call generator, while the report of that
same call is still scored with the pre-retrain forest `F`. -/
theorem detector_retrain_cadence
    (d : Detector) (F : IsolationForest) (obs : List (List ℝ))
    (hF : d.forest = some F) (h0 : d.events_since_train = 0)
    (hri : 0 < d.config.retrain_interval)
    (hlen : obs.length = d.config.retrain_interval) :
    (∀ j < obs.length,
      (d.run (obs.take j)).forest = some F ∧
      (d.run (obs.take j)).events_since_train = j) ∧
    ((d.run (obs.take (obs.length - 1))).process
        (obs.getD (obs.length - 1) [])).1.events_since_train = 0 ∧
    ((d.run (obs.take (obs.length - 1))).process
        (obs.getD (obs.length - 1) [])).1.forest =
      some (IsolationForest.fit
        (slide d.config.buffer_size
          ((d.run (obs.take (obs.length - 1))).buffer ++
            [obs.getD (obs.length - 1) []]))
        d.config.n_trees d.config.buffer_size
        (d.run (obs.take (obs.length - 1))).rng).1 ∧
    ((d.run (obs.take (obs.length - 1))).process
        (obs.getD (obs.length - 1) [])).2 =
      (if d.config.threshold ≤ F.score (obs.getD (obs.length - 1) [])
       then some { features := obs.getD (obs.length - 1) [],
                   score := F.score (obs.getD (obs.length - 1) []),
                   event_number :=
                     (d.run (obs.take (obs.length - 1))).total_events + 1 }
       else none) := by
  have main : ∀ j < obs.length,
      (d.run (obs.take j)).forest = some F ∧
      (d.run (obs.take j)).events_since_train = j := by
    intro j
    induction j with
    | zero =>
      intro _
      simp only [List.take_zero, run_nil]
      exact ⟨hF, h0⟩
    | succ j ih =>
      intro hj
      have hjlt : j < obs.length := by omega
      obtain ⟨ihf, ihe⟩ := ih hjlt
      have htake : obs.take (j + 1) = obs.take j ++ [obs[j]] := by
        rw [List.take_succ, List.getElem?_eq_getElem hjlt]
        rfl
      rw [htake, run_concat]
      have hcfg : (d.run (obs.take j)).config = d.config :=
        run_config _ d
      have hnr : (d.run (obs.take j)).events_since_train + 1 <
          (d.run (obs.take j)).config.retrain_interval := by
        rw [ihe, hcfg]
        omega
      have hp := (process_trained (d.run (obs.take j)) obs[j] F ihf).2.2.2.2.2 hnr
      exact ⟨hp.2.1, by rw [hp.1, ihe]⟩
  refine ⟨main, ?_⟩
  have hn1 : obs.length - 1 < obs.length := by omega
  obtain ⟨hpf, hpe⟩ := main (obs.length - 1) hn1
  have hget : obs.getD (obs.length - 1) [] = obs[obs.length - 1] :=
    List.getD_eq_getElem _ _ hn1
  have hcfg : (d.run (obs.take (obs.length - 1))).config = d.config :=
    run_config _ d
  have hre : (d.run (obs.take (obs.length - 1))).config.retrain_interval ≤
      (d.run (obs.take (obs.length - 1))).events_since_train + 1 := by
    rw [hpe, hcfg]
    omega
  have hp := process_trained (d.run (obs.take (obs.length - 1)))
    (obs.getD (obs.length - 1) []) F hpf
  have hretrain := hp.2.2.2.2.1 hre
  refine ⟨hretrain.1, ?_, ?_⟩
  · rw [hretrain.2.1, hcfg]
  · rw [hp.2.2.2.1, hcfg]

/-- C3 witness: the demo Detecting-state detector with
`retrain_interval = 1` retrains on its very first call, scoring that call
with the pre-retrain forest. -/
theorem detector_retrain_cadence_witness :
    (∀ j < ([[(0 : ℝ)]] : List (List ℝ)).length,
      (detectorDeg.run ([[(0 : ℝ)]].take j)).forest = some forestDeg ∧
      (detectorDeg.run ([[(0 : ℝ)]].take j)).events_since_train = j) ∧
    ((detectorDeg.run ([[(0 : ℝ)]].take (([[(0 : ℝ)]] : List (List ℝ)).length - 1))).process
        ([[(0 : ℝ)]].getD (([[(0 : ℝ)]] : List (List ℝ)).length - 1) [])).1.events_since_train = 0 ∧
    ((detectorDeg.run ([[(0 : ℝ)]].take (([[(0 : ℝ)]] : List (List ℝ)).length - 1))).process
        ([[(0 : ℝ)]].getD (([[(0 : ℝ)]] : List (List ℝ)).length - 1) [])).1.forest =
      some (IsolationForest.fit
        (slide detectorDeg.config.buffer_size
          ((detectorDeg.run ([[(0 : ℝ)]].take (([[(0 : ℝ)]] : List (List ℝ)).length - 1))).buffer ++
            [[[(0 : ℝ)]].getD (([[(0 : ℝ)]] : List (List ℝ)).length - 1) []]))
        detectorDeg.config.n_trees detectorDeg.config.buffer_size
        (detectorDeg.run ([[(0 : ℝ)]].take (([[(0 : ℝ)]] : List (List ℝ)).length - 1))).rng).1 ∧
    ((detectorDeg.run ([[(0 : ℝ)]].take (([[(0 : ℝ)]] : List (List ℝ)).length - 1))).process
        ([[(0 : ℝ)]].getD (([[(0 : ℝ)]] : List (List ℝ)).length - 1) [])).2 =
      (if detectorDeg.config.threshold ≤
          forestDeg.score ([[(0 : ℝ)]].getD (([[(0 : ℝ)]] : List (List ℝ)).length - 1) [])
       then some { features := [[(0 : ℝ)]].getD (([[(0 : ℝ)]] : List (List ℝ)).length - 1) [],
                   score := forestDeg.score
                     ([[(0 : ℝ)]].getD (([[(0 : ℝ)]] : List (List ℝ)).length - 1) []),
                   event_number :=
                     (detectorDeg.run
                       ([[(0 : ℝ)]].take (([[(0 : ℝ)]] : List (List ℝ)).length - 1))).total_events + 1 }
       else none) :=
  detector_retrain_cadence detectorDeg forestDeg [[0]] rfl rfl Nat.one_pos rfl

/-- C10: `train` replaces the forest (fitting on the current buffer with
the current generator) and resets `events_since_train`, leaving buffer,
`total_events`, `total_anomalies` and config untouched; in particular the
Buffering→Detecting transition call trains on — and keeps — the full
buffer including the vector that completed it. -/
theorem train_frame_and_transition :
    (∀ d : Detector,
      d.train.buffer = d.buffer ∧
      d.train.total_events = d.total_events ∧
      d.train.total_anomalies = d.total_anomalies ∧
      d.train.config = d.config ∧
      d.train.events_since_train = 0 ∧
      d.train.forest = some (IsolationForest.fit d.buffer d.config.n_trees
        d.config.buffer_size d.rng).1) ∧
    (∀ (d : Detector) (v : List ℝ), d.forest = none →
      d.config.buffer_size ≤ d.buffer.length + 1 →
      ((d.process v).1.buffer = d.buffer ++ [v] ∧
       (d.process v).1.forest = some (IsolationForest.fit (d.buffer ++ [v])
         d.config.n_trees d.config.buffer_size d.rng).1)) := by
  constructor
  · intro d
    exact ⟨rfl, rfl, rfl, rfl, rfl, rfl⟩
  · intro d v h hc
    rw [process_untrained d v h]
    have hcond : d.config.buffer_size ≤ (d.buffer ++ [v]).length := by
      simp only [List.length_append, List.length_cons, List.length_nil]
      omega
    rw [if_pos hcond]
    exact ⟨rfl, rfl⟩

/-- C10 witness: the frame of `train` on the demo detector, and the
transition step of a fresh `buffer_size = 1` detector on its first
observation. -/
theorem train_frame_and_transition_witness :
    (detectorDeg.train.buffer = detectorDeg.buffer ∧
     detectorDeg.train.total_events = detectorDeg.total_events ∧
     detectorDeg.train.total_anomalies = detectorDeg.total_anomalies ∧
     detectorDeg.train.config = detectorDeg.config ∧
     detectorDeg.train.events_since_train = 0 ∧
     detectorDeg.train.forest = some (IsolationForest.fit detectorDeg.buffer
       detectorDeg.config.n_trees detectorDeg.config.buffer_size
       detectorDeg.rng).1) ∧
    (((Detector.new cfgDemo rngDemo).process [0]).1.buffer =
      (Detector.new cfgDemo rngDemo).buffer ++ [[0]] ∧
     ((Detector.new cfgDemo rngDemo).process [0]).1.forest =
      some (IsolationForest.fit
        ((Detector.new cfgDemo rngDemo).buffer ++ [[0]])
        (Detector.new cfgDemo rngDemo).config.n_trees
        (Detector.new cfgDemo rngDemo).config.buffer_size
        (Detector.new cfgDemo rngDemo).rng).1) :=
  ⟨train_frame_and_transition.1 detectorDeg,
   train_frame_and_transition.2 (Detector.new cfgDemo rngDemo) [0] rfl
     (le_refl 1)⟩

end AnomalyDetection
